import Mathlib

/-!
Verification of the configuration-resolution core of the ComfyUI variant
builder: the YAML data model, the deep-merge algorithm of
`ConfigLoader._merge_dicts` (config_loader_simple.py), the fueled
recursive resolver `ConfigLoader.load_config` of both loaders, the
validation pass of `ComfyUIBuilder.validate_config` (builder.py), the
config template of `ComfyUIBuilder.create_config`, and the requirements
deduplication of `ConfigBuilder._process_requirements`
(variant_builder.py).

YAML documents are modelled as association lists that keep insertion
order, matching Python dict semantics (`yaml.safe_load` produces plain
dicts whose keys are unique and ordered).
-/

namespace RunPod

/-- A YAML value as produced by `yaml.safe_load`: scalars (strings,
integers, booleans, null), mappings (Python dicts, modelled as ordered
association lists with string keys), and sequences (Python lists). -/
inductive Value where
  | str (s : String)
  | int (n : Int)
  | bool (b : Bool)
  | null
  | map (entries : List (String × Value))
  | list (items : List Value)
deriving Repr

/-- A YAML mapping / Python dict: ordered association list. -/
abbrev Dict := List (String × Value)

/-- Python `d[k]` / `k in d` on a dict: first binding of the key wins
(keys of a well-formed YAML mapping are unique anyway). -/
def alookup {α : Type} : List (String × α) → String → Option α
  | [], _ => none
  | (k', v) :: rest, k => if k' = k then some v else alookup rest k

/-- Python `d[k] = v` on a dict: replace the value in place when the key
is present (keeping its position), append a fresh binding otherwise. -/
def setKey {α : Type} : List (String × α) → String → α → List (String × α)
  | [], k, v => [(k, v)]
  | (k', v') :: rest, k, v =>
    if k' = k then (k, v) :: rest else (k', v') :: setKey rest k v

/-- Python `del d[k]`: remove the binding of `k` (the first one; a
well-formed YAML mapping has at most one). -/
def eraseKey {α : Type} : List (String × α) → String → List (String × α)
  | [], _ => []
  | (k', v') :: rest, k =>
    if k' = k then rest else (k', v') :: eraseKey rest k

/-- The keys of an association list, in order. -/
def keysOf {α : Type} (d : List (String × α)) : List String :=
  d.map Prod.fst

/-- `isinstance(v, dict)`. -/
def Value.isMapB : Value → Bool
  | .map _ => true
  | _ => false

/-- `isinstance(v, list)`. -/
def Value.isListB : Value → Bool
  | .list _ => true
  | _ => false

/-- A scalar: neither a mapping nor a sequence. -/
def isScalar (v : Value) : Bool := !v.isMapB && !v.isListB

/-- Embeds `ConfigLoader._merge_lists` (config_loader_simple.py line 28):
merge two lists by concatenating them, base items first. -/
def merge_lists (base override : List Value) : List Value :=
  base ++ override

mutual

/-- The per-key combination step inside `ConfigLoader._merge_dicts`
(config_loader_simple.py lines 36-46): when the existing value and the
override value are both dicts they are merged recursively, when both are
lists they are concatenated, otherwise the override value wins. -/
def mergeVal : Value → Value → Value
  | Value.map b, Value.map o => Value.map (mergeEntries b o)
  | Value.list b, Value.list o => Value.list (merge_lists b o)
  | _, o => o

/-- Embeds `ConfigLoader._merge_dicts` (config_loader_simple.py lines
32-50): start from a copy of `base` and fold the `override` bindings into
it in insertion order, combining values of shared keys with `mergeVal`
and appending keys that are new. -/
def mergeEntries : Dict → Dict → Dict
  | result, [] => result
  | result, (k, v) :: rest =>
    mergeEntries
      (match alookup result k with
       | some bv => setKey result k (mergeVal bv v)
       | none => setKey result k v)
      rest

end

/-- The configuration directory, modelled as a finite map from
configuration name to the parsed document of the file
`config-<name>.yaml` (the naming convention is a bijection between names
and file names, so a missing name is exactly a missing file). -/
abbrev Files := List (String × Dict)

/-- The resolver's in-memory cache `self._cache`: configuration name to
fully resolved document. -/
abbrev Cache := List (String × Dict)

/-- Python `s.endswith(suf)`, stated on the character lists of the two
strings (kernel-computable, unlike `String.endsWith`). -/
def strEndsWith (s suf : String) : Bool :=
  List.isSuffixOf suf.data s.data

/-- Normalization of the `extends` value applied by both loaders: strip a
leading `config-` (7 characters) and a trailing `.yaml` (5 characters)
(config_loader_simple.py lines 76-79). -/
def normalizeBaseName (s : String) : String :=
  let s1 := if s.startsWith "config-" then s.drop 7 else s
  if strEndsWith s1 ".yaml" then s1.dropRight 5 else s1

/-- Outcome of one `load_config` call: success carries the resolved
document and the updated cache; `notFound` is the
`FileNotFoundError("Config not found: <missing>")` raised when the named
source file does not exist (the one error kind the loaders raise);
`typeError` is the uncaught `AttributeError` when the `extends` value is
not a string; `fuelOut` is the model's stand-in for non-termination of
the unguarded recursion. -/
inductive LoadOutcome where
  | ok (doc : Dict) (cache : Cache)
  | notFound (missing : String)
  | typeError
  | fuelOut
deriving Repr

/-- Whether the outcome is a success. -/
def LoadOutcome.isOk : LoadOutcome → Bool
  | .ok _ _ => true
  | _ => false

/-- Embeds `ConfigLoader.load_config` of the simple loader
(config_loader_simple.py lines 52-91): return the cached document on a
hit; otherwise fail with `notFound` if no source file exists; otherwise,
when the document has an `extends` field, normalize the referenced name,
recursively resolve it (sharing the cache), delete `extends` from the
descendant, merge ancestor and descendant with `_merge_dicts`, cache and
return. The Python recursion has no cycle guard, so the model spends one
unit of fuel per recursive call and returns `fuelOut` when it runs out. -/
def load_config (files : Files) : Nat → Cache → String → LoadOutcome
  | 0, _, _ => .fuelOut
  | fuel + 1, cache, config_name =>
    match alookup cache config_name with
    | some doc => .ok doc cache
    | none =>
      match alookup files config_name with
      | none => .notFound config_name
      | some config =>
        match alookup config "extends" with
        | none => .ok config (setKey cache config_name config)
        | some (Value.str extVal) =>
          match load_config files fuel cache (normalizeBaseName extVal) with
          | .ok base_config cache' =>
            let merged := mergeEntries base_config (eraseKey config "extends")
            .ok merged (setKey cache' config_name merged)
          | e => e
        | some _ => .typeError

/-- Modelled from the spec: the external `hiyapyco.load` call with
`method=METHOD_MERGE, mergelists=False` (config_loader_hiyapyco.py lines
70-76) is not part of this repository; the spec describes its effect as
the same deep merge with per-type rules and list append, so it is
modelled by the same merge as the simple loader. The claims settled
against the hiyapyco loader only exercise branches that do not reach this
merge. -/
def hiyapycoMerge (base override : Dict) : Dict :=
  mergeEntries base override

/-- Embeds `ConfigLoader.load_config` of the hiyapyco loader
(config_loader_hiyapyco.py lines 29-87): cache hit, then `notFound` if
the source file is missing; when the document has an `extends` field the
ancestor file is added to the merge list only if it exists — a missing
ancestor silently degrades to a single-file load. The `extends` key is
deleted from the merged result before it is cached and returned. This
loader does not recurse: it merges at most two files. -/
def load_config_h (files : Files) (cache : Cache) (config_name : String) :
    LoadOutcome :=
  match alookup cache config_name with
  | some doc => .ok doc cache
  | none =>
    match alookup files config_name with
    | none => .notFound config_name
    | some config =>
      match alookup config "extends" with
      | some (Value.str extVal) =>
        match alookup files (normalizeBaseName extVal) with
        | some base_doc =>
          let merged := eraseKey (hiyapycoMerge base_doc config) "extends"
          .ok merged (setKey cache config_name merged)
        | none =>
          let merged := eraseKey config "extends"
          .ok merged (setKey cache config_name merged)
      | some _ => .typeError
      | none =>
        let merged := eraseKey config "extends"
        .ok merged (setKey cache config_name merged)

/-- Whether `pat` occurs as a contiguous run inside `s` (character
lists). -/
def charListContains (s pat : List Char) : Bool :=
  match s with
  | [] => pat.isEmpty
  | _ :: rest => pat.isPrefixOf s || charListContains rest pat

/-- Python substring test `pat in s` for strings. -/
def strContains (s pat : String) : Bool :=
  charListContains s.data pat.data

/-- Python `k in v` on an arbitrary value: key membership for a dict,
substring test for a string, element equality for a list, and a
`TypeError` (modelled as `none`) for the remaining scalars. -/
def pyContains (k : String) : Value → Option Bool
  | .map m => some (alookup m k).isSome
  | .str s => some (strContains s k)
  | .list l =>
    some (l.any fun v =>
      match v with
      | .str s => s = k
      | _ => false)
  | _ => none

/-- Python iteration `for x in v`: the items of a list, the characters of
a string (each a one-character string), the keys of a dict, and a
`TypeError` (modelled as `none`) for the remaining scalars. -/
def iterElems : Value → Option (List Value)
  | .list l => some l
  | .str s => some (s.toList.map fun c => Value.str c.toString)
  | .map m => some (m.map fun kv => Value.str kv.1)
  | _ => none

/-- One reported validation offense, mirroring the `logger.error` calls
of `ComfyUIBuilder.validate_config` (builder.py lines 94, 101, 109, 116):
a missing required field, a dict node entry without `url`, a model entry
without `url` or `name`, or the catch-all for an exception raised during
validation. -/
inductive VErr where
  | missingField (f : String)
  | nodeMissingUrl (v : Value)
  | modelMissingFields (v : Value)
  | exceptionCaught
deriving Repr

/-- The node loop of `validate_config` (builder.py lines 98-102): the
first dict entry lacking `url`, if any. Non-dict entries pass. -/
def nodesErrs : List Value → Option VErr
  | [] => none
  | v :: rest =>
    match v with
    | .map m =>
      if (alookup m "url").isSome then nodesErrs rest
      else some (.nodeMissingUrl (.map m))
    | _ => nodesErrs rest

/-- The inner model loop of `validate_config` (builder.py lines 107-110):
`'url' not in model or 'name' not in model`, short-circuit, where a
non-container entry raises (`Except.error`). -/
def modelListCheck : List Value → Except Unit (Option VErr)
  | [] => .ok none
  | v :: rest =>
    match pyContains "url" v with
    | none => .error ()
    | some false => .ok (some (.modelMissingFields v))
    | some true =>
      match pyContains "name" v with
      | none => .error ()
      | some false => .ok (some (.modelMissingFields v))
      | some true => modelListCheck rest

/-- The outer model loop of `validate_config` (builder.py lines 106-110):
iterate the categories of `models` in order; a non-iterable category
value raises. -/
def modelsCheck : List (String × Value) → Except Unit (Option VErr)
  | [] => .ok none
  | (_, ml) :: rest =>
    match iterElems ml with
    | none => .error ()
    | some items =>
      match modelListCheck items with
      | .error () => .error ()
      | .ok (some e) => .ok (some e)
      | .ok none => modelsCheck rest

/-- Embeds the validation core of `ComfyUIBuilder.validate_config`
(builder.py lines 90-117), applied to the already-resolved document:
returns the boolean result together with the list of offenses reported
via `logger.error`. The Python code returns `False` at the first
violation, so this list has at most one element; an exception raised
mid-validation is caught by the surrounding `except` and reported as a
single catch-all error. -/
def validate_run (config : Dict) : Bool × List VErr :=
  if (alookup config "name").isNone then (false, [.missingField "name"])
  else if (alookup config "version").isNone then (false, [.missingField "version"])
  else
    match iterElems ((alookup config "nodes").getD (.list [])) with
    | none => (false, [.exceptionCaught])
    | some nodeItems =>
      match nodesErrs nodeItems with
      | some e => (false, [e])
      | none =>
        match (alookup config "models").getD (.map []) with
        | .map cats =>
          match modelsCheck cats with
          | .error () => (false, [.exceptionCaught])
          | .ok (some e) => (false, [e])
          | .ok none => (true, [])
        | _ => (false, [.exceptionCaught])

/-- The boolean verdict of `validate_config` on a resolved document. -/
def validate_doc (config : Dict) : Bool :=
  (validate_run config).1

/-- Embeds the `config_data` template built by
`ComfyUIBuilder.create_config` (builder.py lines 218-244): the document
the `create` command writes for a new configuration, including the
literal `!include base` sentinel entries in `nodes` and `requirements`. -/
def create_config_data (name base_image : String) : Dict :=
  [("name", .str name),
   ("version", .str "1.0.0"),
   ("base_image", .str base_image),
   ("description", .str ("ComfyUI configuration: " ++ name)),
   ("extends", .str "config-base.yaml"),
   ("nodes", .list [.str "!include base"]),
   ("requirements", .list [.str "!include base"]),
   ("workflows", .list []),
   ("models", .map
     [("checkpoints", .list []),
      ("loras", .list []),
      ("vae", .list []),
      ("controlnet", .list []),
      ("upscale_models", .list [])]),
   ("env_vars", .map
     [("CONFIG_NAME", .str name),
      ("COMFYUI_ARGS", .str "")])]

/-- Embeds the deduplication step of `ConfigBuilder._process_requirements`
(variant_builder.py lines 102-105): the lines written to
`requirements.txt` are `list(set(requirements))`. Python's set iteration
order for strings is unspecified (hash-based), so the conversion is
modelled by canonical duplicate erasure, which is faithful up to
reordering: it keeps exactly one copy of each distinct string. -/
def process_requirements_lines (requirements : List String) : List String :=
  requirements.dedup

/-- Keys of a well-formed YAML mapping are unique. -/
def keysNodup {α : Type} (d : List (String × α)) : Prop :=
  (keysOf d).Nodup

/-- An acyclic, fully-present `extends` chain: `Chain files name n` holds
when the source for `name` exists and following `extends` references
(each normalized the way the loaders normalize them) reaches a document
without `extends` after exactly `n` steps, every source on the way
existing. -/
inductive Chain (files : Files) : String → Nat → Prop where
  | base : ∀ name doc, alookup files name = some doc →
      alookup doc "extends" = none → Chain files name 0
  | step : ∀ name doc s n, alookup files name = some doc →
      alookup doc "extends" = some (Value.str s) →
      Chain files (normalizeBaseName s) n → Chain files name (n + 1)

/-- A configuration directory holding only `config-child.yaml`, whose
`extends` names the missing configuration `base`. -/
def missingAncestorFiles : Files :=
  [("child", [("name", Value.str "child"), ("extends", Value.str "base")])]

/-- A configuration directory whose only configuration extends itself: a
cyclic ancestor chain. -/
def cyclicFiles : Files :=
  [("a", [("extends", Value.str "a")])]

/-- A configuration directory for the include-marker scenario: `child`
extends `base` and carries the literal `!include base` sentinel in its
`nodes` sequence. -/
def markerFiles : Files :=
  [("base", [("nodes", Value.list [Value.str "repoA"])]),
   ("child", [("extends", Value.str "base"),
              ("nodes", Value.list
                [Value.str "!include base", Value.str "repoB"])])]

/-- A document with two distinct validation offenses at once: the
required field `version` is missing, and the single `checkpoints` model
entry lacks `url`. -/
def twoOffenseDoc : Dict :=
  [("name", Value.str "x"),
   ("models", Value.map
     [("checkpoints", Value.list [Value.map [("name", Value.str "m")]])])]

/-- The document the simple loader resolves for `child` of
`markerFiles`: the two `nodes` sequences concatenated, the sentinel kept
literally. -/
def resolvedChildDoc : Dict :=
  [("nodes", Value.list
    [Value.str "repoA", Value.str "!include base", Value.str "repoB"])]

/-- The cache after the simple loader resolves `child` of `markerFiles`. -/
def resolvedMarkerCache : Cache :=
  [("base", [("nodes", Value.list [Value.str "repoA"])]),
   ("child", resolvedChildDoc)]

instance {α : Type} (d : List (String × α)) : Decidable (keysNodup d) :=
  inferInstanceAs (Decidable (keysOf d).Nodup)

/-- A well-typed `models` category value: a sequence whose entries are
all mappings, the shape §3 of the data model prescribes for model
descriptors. -/
def isListOfMaps : Value → Bool
  | .list l => l.all Value.isMapB
  | _ => false

theorem alookup_setKey_self {α : Type} (d : List (String × α)) (k : String)
    (v : α) : alookup (setKey d k v) k = some v := by
  induction d with
  | nil => simp [setKey, alookup]
  | cons hd tl ih =>
    obtain ⟨k', v'⟩ := hd
    by_cases h : k' = k
    · simp [setKey, h, alookup]
    · simp [setKey, h, alookup, ih]

theorem alookup_setKey_ne {α : Type} (d : List (String × α)) (k k' : String)
    (v : α) (h : k' ≠ k) : alookup (setKey d k v) k' = alookup d k' := by
  induction d with
  | nil => simp [setKey, alookup, Ne.symm h]
  | cons hd tl ih =>
    obtain ⟨k1, v1⟩ := hd
    by_cases h1 : k1 = k
    · subst h1
      simp [setKey, alookup, Ne.symm h]
    · simp [setKey, h1, alookup, ih]

theorem alookup_eq_none_of_not_mem {α : Type} (d : List (String × α))
    (k : String) (h : k ∉ keysOf d) : alookup d k = none := by
  induction d with
  | nil => simp [alookup]
  | cons hd tl ih =>
    obtain ⟨k1, v1⟩ := hd
    simp only [keysOf, List.map_cons, List.mem_cons] at h
    push_neg at h
    simp only [alookup]
    rw [if_neg (Ne.symm h.1)]
    exact ih (by simpa [keysOf] using h.2)

theorem alookup_eraseKey_self {α : Type} (d : List (String × α)) (k : String)
    (h : keysNodup d) : alookup (eraseKey d k) k = none := by
  induction d with
  | nil => simp [eraseKey, alookup]
  | cons hd tl ih =>
    obtain ⟨k1, v1⟩ := hd
    have hnd : keysNodup tl := (List.nodup_cons.mp h).2
    by_cases h1 : k1 = k
    · subst h1
      simp only [eraseKey, if_pos rfl]
      exact alookup_eq_none_of_not_mem tl k1 (List.nodup_cons.mp h).1
    · simp [eraseKey, h1, alookup, ih hnd]

theorem alookup_eraseKey_ne {α : Type} (d : List (String × α)) (k k' : String)
    (h : k' ≠ k) : alookup (eraseKey d k) k' = alookup d k' := by
  induction d with
  | nil => simp [eraseKey]
  | cons hd tl ih =>
    obtain ⟨k1, v1⟩ := hd
    by_cases h1 : k1 = k
    · subst h1
      simp [eraseKey, alookup, Ne.symm h]
    · simp [eraseKey, h1, alookup, ih]

/-- The value bound to a key after `_merge_dicts`: keys of one side only
are kept as-is, shared keys are combined with the per-type rule. The
override mapping is assumed well-formed (unique keys), as every mapping
parsed from YAML is. -/
theorem alookup_mergeEntries (o : Dict) (ho : keysNodup o) (b : Dict)
    (k : String) :
    alookup (mergeEntries b o) k =
      match alookup o k with
      | some ov =>
        some (match alookup b k with
              | some bv => mergeVal bv ov
              | none => ov)
      | none => alookup b k := by
  induction o generalizing b with
  | nil => simp [mergeEntries, alookup]
  | cons hd rest ih =>
    obtain ⟨k1, v1⟩ := hd
    have hnd : keysNodup rest := (List.nodup_cons.mp ho).2
    have hk1 : k1 ∉ keysOf rest := (List.nodup_cons.mp ho).1
    rw [mergeEntries, ih hnd]
    by_cases hkk : k1 = k
    · subst hkk
      have hrest : alookup rest k1 = none :=
        alookup_eq_none_of_not_mem rest k1 hk1
      simp only [hrest, alookup, if_pos rfl]
      cases hb : alookup b k1 with
      | some bv => simp [hb, alookup_setKey_self]
      | none => simp [hb, alookup_setKey_self]
    · have hhd : alookup ((k1, v1) :: rest) k = alookup rest k := by
        simp [alookup, hkk]
      rw [hhd]
      cases hb : alookup b k1 with
      | some bv => simp [alookup_setKey_ne _ _ _ _ fun hh => hkk hh.symm]
      | none => simp [alookup_setKey_ne _ _ _ _ fun hh => hkk hh.symm]

/-- When the two sides are not both mappings and not both sequences, the
per-key combination is plain override. -/
theorem mergeVal_eq_override (bv ov : Value)
    (h1 : (bv.isMapB && ov.isMapB) = false)
    (h2 : (bv.isListB && ov.isListB) = false) :
    mergeVal bv ov = ov := by
  cases bv <;> cases ov <;>
    simp_all [mergeVal, Value.isMapB, Value.isListB]

theorem isScalar_not_map (v : Value) (h : isScalar v = true) :
    v.isMapB = false := by
  cases v <;> simp_all [isScalar, Value.isMapB, Value.isListB]

theorem isScalar_not_list (v : Value) (h : isScalar v = true) :
    v.isListB = false := by
  cases v <;> simp_all [isScalar, Value.isMapB, Value.isListB]

/-- C1: the deep merge of `_merge_dicts` obeys the per-type rules at
every key, recursively on nested mappings: scalar vs scalar — the
override (descendant) value wins; mapping vs mapping — merged key-by-key
(the recursive merge `mergeEntries`); sequence vs sequence — ancestor
items then descendant items, so the merged length is the sum of the two
lengths; mismatched types — the override value replaces the ancestor
value; a key present on only one side is kept as-is. -/
theorem merge_per_type_rules (b o : Dict) (ho : keysNodup o) (k : String) :
    (∀ bv ov, alookup b k = some bv → alookup o k = some ov →
      ((isScalar bv = true → isScalar ov = true →
          alookup (mergeEntries b o) k = some ov) ∧
       (∀ mb mo, bv = Value.map mb → ov = Value.map mo →
          alookup (mergeEntries b o) k =
            some (Value.map (mergeEntries mb mo))) ∧
       (∀ lb lo, bv = Value.list lb → ov = Value.list lo →
          alookup (mergeEntries b o) k = some (Value.list (lb ++ lo)) ∧
          (lb ++ lo).length = lb.length + lo.length) ∧
       ((bv.isMapB && ov.isMapB) = false →
        (bv.isListB && ov.isListB) = false →
          alookup (mergeEntries b o) k = some ov))) ∧
    (∀ bv, alookup b k = some bv → alookup o k = none →
      alookup (mergeEntries b o) k = some bv) ∧
    (∀ ov, alookup b k = none → alookup o k = some ov →
      alookup (mergeEntries b o) k = some ov) := by
  have hw := alookup_mergeEntries o ho b k
  refine ⟨fun bv ov hb hov => ?_, fun bv hb hov => ?_, fun ov hb hov => ?_⟩
  · rw [hov, hb] at hw
    simp only at hw
    refine ⟨fun hs1 hs2 => ?_, fun mb mo hm1 hm2 => ?_,
      fun lb lo hl1 hl2 => ?_, fun hm hl => ?_⟩
    · rw [hw, mergeVal_eq_override bv ov
        (by rw [isScalar_not_map bv hs1]; rfl)
        (by rw [isScalar_not_list bv hs1]; rfl)]
    · subst hm1; subst hm2
      rw [hw]
      rfl
    · subst hl1; subst hl2
      rw [hw]
      exact ⟨rfl, List.length_append _ _⟩
    · rw [hw, mergeVal_eq_override bv ov hm hl]
  · rw [hov, hb] at hw
    simpa using hw
  · rw [hov, hb] at hw
    simpa using hw

/-- Witness for C1 at a concrete ancestor/descendant pair exercising the
sequence rule: both bind `l` to a one-element list and the merge
concatenates them. -/
theorem merge_per_type_rules_witness :
    alookup (mergeEntries [("l", Value.list [Value.int 1])]
        [("l", Value.list [Value.int 2])]) "l"
      = some (Value.list [Value.int 1, Value.int 2]) ∧
    ([Value.int 1] ++ [Value.int 2] : List Value).length = 1 + 1 := by
  have h := (merge_per_type_rules [("l", Value.list [Value.int 1])]
      [("l", Value.list [Value.int 2])] (by simp [keysNodup, keysOf]) "l").1
      (Value.list [Value.int 1]) (Value.list [Value.int 2]) rfl rfl
  have h2 := h.2.2.1 [Value.int 1] [Value.int 2] rfl rfl
  exact ⟨h2.1, h2.2⟩

/-- C4: resolving a name for which no source file exists fails with the
not-found error naming that configuration and returns no document, in
both loaders. -/
theorem resolve_missing_source_not_found (files : Files) (fuel : Nat)
    (cache : Cache) (name : String)
    (hc : alookup cache name = none) (hf : alookup files name = none) :
    load_config files (fuel + 1) cache name = LoadOutcome.notFound name ∧
    load_config_h files cache name = LoadOutcome.notFound name := by
  constructor
  · rw [load_config, hc, hf]
  · rw [load_config_h, hc, hf]

/-- Witness for C4: resolving the absent name `nope` in the concrete
one-file directory fails with the not-found error. -/
theorem resolve_missing_source_not_found_witness :
    load_config missingAncestorFiles 1 [] "nope"
      = LoadOutcome.notFound "nope" ∧
    load_config_h missingAncestorFiles [] "nope"
      = LoadOutcome.notFound "nope" :=
  resolve_missing_source_not_found missingAncestorFiles 0 [] "nope" rfl rfl

/-- Counterexample to C2 as stated: with the concrete directory in which
`child` extends the missing `base`, the simple loader reports the missing
ancestor with the very same plain not-found error
(`FileNotFoundError("Config not found: base")`) that a missing root gets
— no distinct `MissingAncestorError` exists — and the hiyapyco loader
does not fail at all: it silently falls back to loading the single file. -/
theorem missing_ancestor_counterexample :
    load_config missingAncestorFiles 5 [] "child"
      = LoadOutcome.notFound "base" ∧
    load_config_h missingAncestorFiles [] "child"
      = LoadOutcome.ok [("name", Value.str "child")]
          [("child", [("name", Value.str "child")])] := by
  constructor
  · rfl
  · rfl

/-- C2 amended: when the `extends` of an uncached configuration names an
ancestor with no source file (and no cache entry), the simple loader
fails with the plain not-found error naming the normalized ancestor —
the same error kind used for a missing root, not a distinct
`MissingAncestorError` — while the hiyapyco loader silently degrades to
a single-file load and succeeds with the descendant document minus its
`extends` key. -/
theorem missing_ancestor_behavior (files : Files) (fuel : Nat)
    (cache : Cache) (name : String) (config : Dict) (s : String)
    (hc : alookup cache name = none)
    (hf : alookup files name = some config)
    (he : alookup config "extends" = some (Value.str s))
    (hbc : alookup cache (normalizeBaseName s) = none)
    (hbf : alookup files (normalizeBaseName s) = none) :
    load_config files (fuel + 2) cache name
      = LoadOutcome.notFound (normalizeBaseName s) ∧
    load_config_h files cache name
      = LoadOutcome.ok (eraseKey config "extends")
          (setKey cache name (eraseKey config "extends")) := by
  constructor
  · simp only [load_config, hc, hf, he, hbc, hbf]
  · simp only [load_config_h, hc, hf, he, hbf]

/-- Witness for the amended C2 at the concrete one-file directory. -/
theorem missing_ancestor_behavior_witness :
    load_config missingAncestorFiles 2 [] "child"
      = LoadOutcome.notFound (normalizeBaseName "base") ∧
    load_config_h missingAncestorFiles [] "child"
      = LoadOutcome.ok
          (eraseKey [("name", Value.str "child"),
                     ("extends", Value.str "base")] "extends")
          (setKey [] "child"
            (eraseKey [("name", Value.str "child"),
                       ("extends", Value.str "base")] "extends")) :=
  missing_ancestor_behavior missingAncestorFiles 0 [] "child"
    [("name", Value.str "child"), ("extends", Value.str "base")] "base"
    rfl rfl rfl rfl rfl

theorem alookup_mem {α : Type} (d : List (String × α)) (k : String) (v : α)
    (h : alookup d k = some v) : (k, v) ∈ d := by
  induction d with
  | nil => simp [alookup] at h
  | cons hd tl ih =>
    obtain ⟨k1, v1⟩ := hd
    simp only [alookup] at h
    by_cases h1 : k1 = k
    · subst h1
      rw [if_pos rfl] at h
      obtain rfl : v1 = v := Option.some.inj h
      exact List.mem_cons_self _ _
    · rw [if_neg h1] at h
      exact List.mem_cons_of_mem _ (ih h)

theorem keysOf_eraseKey_sublist {α : Type} (d : List (String × α))
    (k : String) : (keysOf (eraseKey d k)).Sublist (keysOf d) := by
  induction d with
  | nil => simp [eraseKey, keysOf]
  | cons hd tl ih =>
    obtain ⟨k1, v1⟩ := hd
    by_cases h1 : k1 = k
    · simp only [eraseKey, if_pos h1, keysOf, List.map_cons]
      exact List.sublist_cons_self _ _
    · simp only [eraseKey, if_neg h1, keysOf, List.map_cons]
      exact List.Sublist.cons₂ _ ih

theorem keysNodup_eraseKey {α : Type} (d : List (String × α)) (k : String)
    (h : keysNodup d) : keysNodup (eraseKey d k) :=
  List.Nodup.sublist (keysOf_eraseKey_sublist d k) h

theorem mem_keysOf_setKey {α : Type} (d : List (String × α)) (k x : String)
    (v : α) (h : x ∈ keysOf (setKey d k v)) : x ∈ keysOf d ∨ x = k := by
  induction d with
  | nil =>
    simp only [setKey, keysOf, List.map_cons, List.map_nil,
      List.mem_singleton] at h
    exact Or.inr h
  | cons hd tl ih =>
    obtain ⟨k1, v1⟩ := hd
    by_cases h1 : k1 = k
    · subst h1
      simp [setKey, keysOf] at h ⊢
      tauto
    · simp only [setKey, if_neg h1] at h
      simp only [keysOf, List.map_cons, List.mem_cons] at h ⊢
      rcases h with rfl | h
      · exact Or.inl (Or.inl rfl)
      · rcases ih h with h2 | h2
        · exact Or.inl (Or.inr h2)
        · exact Or.inr h2

theorem keysNodup_setKey {α : Type} (d : List (String × α)) (k : String)
    (v : α) (h : keysNodup d) : keysNodup (setKey d k v) := by
  induction d with
  | nil => simp [setKey, keysNodup, keysOf]
  | cons hd tl ih =>
    obtain ⟨k1, v1⟩ := hd
    have h1 := (List.nodup_cons.mp h).1
    have h2 := (List.nodup_cons.mp h).2
    by_cases hk : k1 = k
    · subst hk
      have hs : setKey ((k1, v1) :: tl) k1 v = (k1, v) :: tl := by
        simp [setKey]
      rw [hs]
      exact List.nodup_cons.mpr ⟨h1, h2⟩
    · simp only [setKey, if_neg hk]
      refine List.nodup_cons.mpr ⟨?_, ih h2⟩
      intro hmem
      rcases mem_keysOf_setKey tl k k1 v hmem with hm | rfl
      · exact h1 hm
      · exact hk rfl

theorem keysNodup_mergeEntries (o : Dict) (b : Dict) (hb : keysNodup b) :
    keysNodup (mergeEntries b o) := by
  induction o generalizing b with
  | nil => simpa [mergeEntries] using hb
  | cons hd rest ih =>
    obtain ⟨k, v⟩ := hd
    rw [mergeEntries]
    cases hbk : alookup b k with
    | some bv => exact ih _ (keysNodup_setKey b k _ hb)
    | none => exact ih _ (keysNodup_setKey b k _ hb)

theorem alookup_setKey_cases {α : Type} (d : List (String × α)) (k n : String)
    (v w : α) (h : alookup (setKey d k v) n = some w) :
    (n = k ∧ w = v) ∨ (n ≠ k ∧ alookup d n = some w) := by
  by_cases hn : n = k
  · subst hn
    rw [alookup_setKey_self] at h
    exact Or.inl ⟨rfl, (Option.some.inj h).symm⟩
  · rw [alookup_setKey_ne _ _ _ _ hn] at h
    exact Or.inr ⟨hn, h⟩

theorem mem_setKey {α : Type} (d : List (String × α)) (k : String) (v : α)
    (p : String × α) (hp : p ∈ setKey d k v) : p = (k, v) ∨ p ∈ d := by
  induction d with
  | nil => simpa [setKey] using hp
  | cons hd tl ih =>
    obtain ⟨k1, v1⟩ := hd
    by_cases h1 : k1 = k
    · subst h1
      simp [setKey] at hp
      rcases hp with h2 | h2
      · exact Or.inl h2
      · exact Or.inr (List.mem_cons_of_mem _ h2)
    · simp only [setKey, if_neg h1, List.mem_cons] at hp
      rcases hp with rfl | hp
      · exact Or.inr (List.mem_cons_self _ _)
      · rcases ih hp with h2 | h2
        · exact Or.inl h2
        · exact Or.inr (List.mem_cons_of_mem _ h2)

/-- Invariant carried through the simple loader's recursion: if every
file is a well-formed mapping and no cached document binds `extends`,
then a successful load returns a document without `extends` and the
updated cache again satisfies the invariant. -/
theorem load_config_no_extends_aux (files : Files)
    (hfiles : ∀ p ∈ files, keysNodup p.2) (fuel : Nat) :
    ∀ (cache : Cache) (name : String) (doc : Dict) (cache' : Cache),
    (∀ p ∈ cache, alookup p.2 "extends" = none) →
    load_config files fuel cache name = .ok doc cache' →
    alookup doc "extends" = none ∧
    (∀ p ∈ cache', alookup p.2 "extends" = none) := by
  induction fuel with
  | zero =>
    intro cache name doc cache' hcache h
    simp [load_config] at h
  | succ fuel ih =>
    intro cache name doc cache' hcache h
    rw [load_config] at h
    cases hcc : alookup cache name with
    | some d0 =>
      rw [hcc] at h
      obtain ⟨rfl, rfl⟩ : d0 = doc ∧ cache = cache' := by
        cases h; exact ⟨rfl, rfl⟩
      exact ⟨hcache _ (alookup_mem cache name _ hcc), hcache⟩
    | none =>
      simp only [hcc] at h
      cases hff : alookup files name with
      | none =>
        simp only [hff] at h
        cases h
      | some config =>
        simp only [hff] at h
        have hcfg : keysNodup config := hfiles _ (alookup_mem files name config hff)
        cases hee : alookup config "extends" with
        | none =>
          simp only [hee] at h
          obtain ⟨rfl, rfl⟩ : config = doc ∧ setKey cache name config = cache' := by
            cases h
            exact ⟨rfl, rfl⟩
          refine ⟨hee, fun p hp => ?_⟩
          rcases mem_setKey cache name _ p hp with rfl | hp2
          · exact hee
          · exact hcache p hp2
        | some ev =>
          cases ev with
          | str s =>
            simp only [hee] at h
            cases hrec : load_config files fuel cache (normalizeBaseName s) with
            | ok base_config cache1 =>
              rw [hrec] at h
              obtain ⟨hb, hc1⟩ :=
                ih cache (normalizeBaseName s) base_config cache1 hcache hrec
              obtain ⟨rfl, rfl⟩ :
                  mergeEntries base_config (eraseKey config "extends") = doc ∧
                  setKey cache1 name
                    (mergeEntries base_config (eraseKey config "extends"))
                    = cache' := by
                cases h
                exact ⟨rfl, rfl⟩
              have hmerged : alookup
                  (mergeEntries base_config (eraseKey config "extends"))
                  "extends" = none := by
                rw [alookup_mergeEntries _
                  (keysNodup_eraseKey config "extends" hcfg) base_config
                  "extends"]
                simp only [alookup_eraseKey_self config "extends" hcfg]
                exact hb
              refine ⟨hmerged, fun p hp => ?_⟩
              rcases mem_setKey cache1 name _ p hp with rfl | hp2
              · exact hmerged
              · exact hc1 p hp2
            | notFound m =>
              rw [hrec] at h
              cases h
            | typeError =>
              rw [hrec] at h
              cases h
            | fuelOut =>
              rw [hrec] at h
              cases h
          | int n =>
            simp only [hee] at h
            cases h
          | bool b =>
            simp only [hee] at h
            cases h
          | null =>
            simp only [hee] at h
            cases h
          | map m =>
            simp only [hee] at h
            cases h
          | list l =>
            simp only [hee] at h
            cases h

/-- C3: a successfully resolved document never binds `extends` at top
level, in either loader, provided the source files are well-formed
mappings and the cache only holds previously resolved documents (the
invariant trivially holds for the empty cache a fresh resolver starts
with). The simple loader maintains this through its whole recursion, so
the field is never inherited transitively. -/
theorem resolved_never_contains_extends (files : Files) (fuel : Nat)
    (cache : Cache) (name : String) (doc doc2 : Dict) (cache1 cache2 : Cache)
    (hfiles : ∀ p ∈ files, keysNodup p.2)
    (hcache : ∀ p ∈ cache, alookup p.2 "extends" = none) :
    (load_config files fuel cache name = .ok doc cache1 →
      alookup doc "extends" = none) ∧
    (load_config_h files cache name = .ok doc2 cache2 →
      alookup doc2 "extends" = none) := by
  constructor
  · intro h
    exact (load_config_no_extends_aux files hfiles fuel cache name doc cache1
      hcache h).1
  · intro h
    rw [load_config_h] at h
    cases hcc : alookup cache name with
    | some d0 =>
      simp only [hcc] at h
      obtain ⟨rfl, rfl⟩ : d0 = doc2 ∧ cache = cache2 := by
        cases h; exact ⟨rfl, rfl⟩
      exact hcache _ (alookup_mem cache name _ hcc)
    | none =>
      simp only [hcc] at h
      cases hff : alookup files name with
      | none =>
        simp only [hff] at h
        cases h
      | some config =>
        simp only [hff] at h
        have hcfg : keysNodup config :=
          hfiles _ (alookup_mem files name config hff)
        cases hee : alookup config "extends" with
        | none =>
          simp only [hee] at h
          obtain ⟨rfl, rfl⟩ : eraseKey config "extends" = doc2 ∧
              setKey cache name (eraseKey config "extends") = cache2 := by
            cases h; exact ⟨rfl, rfl⟩
          exact alookup_eraseKey_self config "extends" hcfg
        | some ev =>
          cases ev with
          | str s =>
            simp only [hee] at h
            cases hbf : alookup files (normalizeBaseName s) with
            | some base_doc =>
              simp only [hbf] at h
              obtain ⟨rfl, rfl⟩ :
                  eraseKey (hiyapycoMerge base_doc config) "extends" = doc2 ∧
                  setKey cache name
                    (eraseKey (hiyapycoMerge base_doc config) "extends")
                    = cache2 := by
                cases h; exact ⟨rfl, rfl⟩
              exact alookup_eraseKey_self _ "extends"
                (keysNodup_mergeEntries config base_doc
                  (hfiles _ (alookup_mem files _ _ hbf)))
            | none =>
              simp only [hbf] at h
              obtain ⟨rfl, rfl⟩ : eraseKey config "extends" = doc2 ∧
                  setKey cache name (eraseKey config "extends") = cache2 := by
                cases h; exact ⟨rfl, rfl⟩
              exact alookup_eraseKey_self config "extends" hcfg
          | int n =>
            simp only [hee] at h
            cases h
          | bool b =>
            simp only [hee] at h
            cases h
          | null =>
            simp only [hee] at h
            cases h
          | map m =>
            simp only [hee] at h
            cases h
          | list l =>
            simp only [hee] at h
            cases h

/-- Witness for C3 at the concrete marker directory: the resolved
`child` document (in both loaders) binds no `extends`. -/
theorem resolved_never_contains_extends_witness :
    alookup resolvedChildDoc "extends" = none :=
  (resolved_never_contains_extends markerFiles 2 [] "child"
    resolvedChildDoc resolvedChildDoc resolvedMarkerCache
    [("child", resolvedChildDoc)] (by decide)
    (fun p hp => by cases hp)).1 rfl

/-- After a successful load, the resolved document sits in the returned
cache under its name (config_loader_simple.py line 90). -/
theorem load_config_ok_mem (files : Files) (fuel : Nat) (cache : Cache)
    (name : String) (doc : Dict) (cache' : Cache)
    (h : load_config files fuel cache name = .ok doc cache') :
    alookup cache' name = some doc := by
  cases fuel with
  | zero => simp [load_config] at h
  | succ fuel =>
    rw [load_config] at h
    cases hcc : alookup cache name with
    | some d0 =>
      simp only [hcc] at h
      obtain ⟨rfl, rfl⟩ : d0 = doc ∧ cache = cache' := by
        cases h; exact ⟨rfl, rfl⟩
      exact hcc
    | none =>
      simp only [hcc] at h
      cases hff : alookup files name with
      | none =>
        simp only [hff] at h
        cases h
      | some config =>
        simp only [hff] at h
        cases hee : alookup config "extends" with
        | none =>
          simp only [hee] at h
          obtain ⟨rfl, rfl⟩ : config = doc ∧ setKey cache name config = cache' := by
            cases h; exact ⟨rfl, rfl⟩
          exact alookup_setKey_self cache name _
        | some ev =>
          cases ev with
          | str s =>
            simp only [hee] at h
            cases hrec : load_config files fuel cache (normalizeBaseName s) with
            | ok base_config cache1 =>
              rw [hrec] at h
              obtain ⟨rfl, rfl⟩ :
                  mergeEntries base_config (eraseKey config "extends") = doc ∧
                  setKey cache1 name
                    (mergeEntries base_config (eraseKey config "extends"))
                    = cache' := by
                cases h; exact ⟨rfl, rfl⟩
              exact alookup_setKey_self cache1 name _
            | notFound m =>
              rw [hrec] at h
              cases h
            | typeError =>
              rw [hrec] at h
              cases h
            | fuelOut =>
              rw [hrec] at h
              cases h
          | int n =>
            simp only [hee] at h
            cases h
          | bool b =>
            simp only [hee] at h
            cases h
          | null =>
            simp only [hee] at h
            cases h
          | map m =>
            simp only [hee] at h
            cases h
          | list l =>
            simp only [hee] at h
            cases h

/-- A successful load only adds cache entries: every binding present in
the cache before the call is still present, unchanged, afterwards. -/
theorem load_config_cache_mono (files : Files) (fuel : Nat) :
    ∀ (cache : Cache) (name : String) (doc : Dict) (cache' : Cache),
    load_config files fuel cache name = .ok doc cache' →
    ∀ (n : String) (d : Dict), alookup cache n = some d →
      alookup cache' n = some d := by
  induction fuel with
  | zero =>
    intro cache name doc cache' h
    simp [load_config] at h
  | succ fuel ih =>
    intro cache name doc cache' h n d hn
    rw [load_config] at h
    cases hcc : alookup cache name with
    | some d0 =>
      simp only [hcc] at h
      obtain ⟨rfl, rfl⟩ : d0 = doc ∧ cache = cache' := by
        cases h; exact ⟨rfl, rfl⟩
      exact hn
    | none =>
      have hnn : n ≠ name := by
        intro hq
        rw [hq, hcc] at hn
        cases hn
      simp only [hcc] at h
      cases hff : alookup files name with
      | none =>
        simp only [hff] at h
        cases h
      | some config =>
        simp only [hff] at h
        cases hee : alookup config "extends" with
        | none =>
          simp only [hee] at h
          obtain ⟨rfl, rfl⟩ : config = doc ∧ setKey cache name config = cache' := by
            cases h; exact ⟨rfl, rfl⟩
          rw [alookup_setKey_ne cache name n _ hnn]
          exact hn
        | some ev =>
          cases ev with
          | str s =>
            simp only [hee] at h
            cases hrec : load_config files fuel cache (normalizeBaseName s) with
            | ok base_config cache1 =>
              rw [hrec] at h
              obtain ⟨rfl, rfl⟩ :
                  mergeEntries base_config (eraseKey config "extends") = doc ∧
                  setKey cache1 name
                    (mergeEntries base_config (eraseKey config "extends"))
                    = cache' := by
                cases h; exact ⟨rfl, rfl⟩
              rw [alookup_setKey_ne cache1 name n _ hnn]
              exact ih cache (normalizeBaseName s) base_config cache1 hrec n d hn
            | notFound m =>
              rw [hrec] at h
              cases h
            | typeError =>
              rw [hrec] at h
              cases h
            | fuelOut =>
              rw [hrec] at h
              cases h
          | int m =>
            simp only [hee] at h
            cases h
          | bool b =>
            simp only [hee] at h
            cases h
          | null =>
            simp only [hee] at h
            cases h
          | map m =>
            simp only [hee] at h
            cases h
          | list l =>
            simp only [hee] at h
            cases h

/-- After a successful load by the hiyapyco loader, the resolved
document sits in the returned cache under its name
(config_loader_hiyapyco.py line 86). -/
theorem load_config_h_ok_mem (files : Files) (cache : Cache)
    (name : String) (doc : Dict) (cache' : Cache)
    (h : load_config_h files cache name = .ok doc cache') :
    alookup cache' name = some doc := by
  rw [load_config_h] at h
  cases hcc : alookup cache name with
  | some d0 =>
    simp only [hcc] at h
    obtain ⟨rfl, rfl⟩ : d0 = doc ∧ cache = cache' := by
      cases h; exact ⟨rfl, rfl⟩
    exact hcc
  | none =>
    simp only [hcc] at h
    cases hff : alookup files name with
    | none =>
      simp only [hff] at h
      cases h
    | some config =>
      simp only [hff] at h
      cases hee : alookup config "extends" with
      | none =>
        simp only [hee] at h
        obtain ⟨rfl, rfl⟩ : eraseKey config "extends" = doc ∧
            setKey cache name (eraseKey config "extends") = cache' := by
          cases h; exact ⟨rfl, rfl⟩
        exact alookup_setKey_self cache name _
      | some ev =>
        cases ev with
        | str s =>
          simp only [hee] at h
          cases hbf : alookup files (normalizeBaseName s) with
          | some base_doc =>
            simp only [hbf] at h
            obtain ⟨rfl, rfl⟩ :
                eraseKey (hiyapycoMerge base_doc config) "extends" = doc ∧
                setKey cache name
                  (eraseKey (hiyapycoMerge base_doc config) "extends")
                  = cache' := by
              cases h; exact ⟨rfl, rfl⟩
            exact alookup_setKey_self cache name _
          | none =>
            simp only [hbf] at h
            obtain ⟨rfl, rfl⟩ : eraseKey config "extends" = doc ∧
                setKey cache name (eraseKey config "extends") = cache' := by
              cases h; exact ⟨rfl, rfl⟩
            exact alookup_setKey_self cache name _
        | int n =>
          simp only [hee] at h
          cases h
        | bool b =>
          simp only [hee] at h
          cases h
        | null =>
          simp only [hee] at h
          cases h
        | map m =>
          simp only [hee] at h
          cases h
        | list l =>
          simp only [hee] at h
          cases h

/-- A successful load by the hiyapyco loader only adds cache entries:
every binding present in the cache before the call is still present,
unchanged, afterwards. -/
theorem load_config_h_cache_mono (files : Files) (cache : Cache)
    (name : String) (doc : Dict) (cache' : Cache)
    (h : load_config_h files cache name = .ok doc cache')
    (n : String) (d : Dict) (hn : alookup cache n = some d) :
    alookup cache' n = some d := by
  rw [load_config_h] at h
  cases hcc : alookup cache name with
  | some d0 =>
    simp only [hcc] at h
    obtain ⟨rfl, rfl⟩ : d0 = doc ∧ cache = cache' := by
      cases h; exact ⟨rfl, rfl⟩
    exact hn
  | none =>
    have hnn : n ≠ name := by
      intro hq
      rw [hq, hcc] at hn
      cases hn
    simp only [hcc] at h
    cases hff : alookup files name with
    | none =>
      simp only [hff] at h
      cases h
    | some config =>
      simp only [hff] at h
      cases hee : alookup config "extends" with
      | none =>
        simp only [hee] at h
        obtain ⟨rfl, rfl⟩ : eraseKey config "extends" = doc ∧
            setKey cache name (eraseKey config "extends") = cache' := by
          cases h; exact ⟨rfl, rfl⟩
        rw [alookup_setKey_ne cache name n _ hnn]
        exact hn
      | some ev =>
        cases ev with
        | str s =>
          simp only [hee] at h
          cases hbf : alookup files (normalizeBaseName s) with
          | some base_doc =>
            simp only [hbf] at h
            obtain ⟨rfl, rfl⟩ :
                eraseKey (hiyapycoMerge base_doc config) "extends" = doc ∧
                setKey cache name
                  (eraseKey (hiyapycoMerge base_doc config) "extends")
                  = cache' := by
              cases h; exact ⟨rfl, rfl⟩
            rw [alookup_setKey_ne cache name n _ hnn]
            exact hn
          | none =>
            simp only [hbf] at h
            obtain ⟨rfl, rfl⟩ : eraseKey config "extends" = doc ∧
                setKey cache name (eraseKey config "extends") = cache' := by
              cases h; exact ⟨rfl, rfl⟩
            rw [alookup_setKey_ne cache name n _ hnn]
            exact hn
        | int m =>
          simp only [hee] at h
          cases h
        | bool b =>
          simp only [hee] at h
          cases h
        | null =>
          simp only [hee] at h
          cases h
        | map m =>
          simp only [hee] at h
          cases h
        | list l =>
          simp only [hee] at h
          cases h

/-- C7: resolving a name twice in one resolver lifetime is idempotent,
in both loaders — after a successful first call, a second call on the
returned cache is a cache hit that returns the very same document and
leaves the cache untouched — and the cached result is not changed by
later `resolve` calls: any later successful load of any name still maps
the first name to the same document. -/
theorem resolve_idempotent :
    (∀ (files : Files) (fuel fuel2 fuel3 : Nat) (cache : Cache)
       (name : String) (doc : Dict) (cache' : Cache),
       load_config files fuel cache name = .ok doc cache' →
       load_config files (fuel2 + 1) cache' name = .ok doc cache' ∧
       (∀ (name2 : String) (doc2 : Dict) (cache'' : Cache),
         load_config files fuel3 cache' name2 = .ok doc2 cache'' →
         alookup cache'' name = some doc)) ∧
    (∀ (files : Files) (cache : Cache) (name : String) (doc : Dict)
       (cache' : Cache),
       load_config_h files cache name = .ok doc cache' →
       load_config_h files cache' name = .ok doc cache' ∧
       (∀ (name2 : String) (doc2 : Dict) (cache'' : Cache),
         load_config_h files cache' name2 = .ok doc2 cache'' →
         alookup cache'' name = some doc)) := by
  constructor
  · intro files fuel fuel2 fuel3 cache name doc cache' h
    have hmem := load_config_ok_mem files fuel cache name doc cache' h
    constructor
    · rw [load_config, hmem]
    · intro name2 doc2 cache'' h2
      exact load_config_cache_mono files fuel3 cache' name2 doc2 cache'' h2
        name doc hmem
  · intro files cache name doc cache' h
    have hmem := load_config_h_ok_mem files cache name doc cache' h
    constructor
    · rw [load_config_h, hmem]
    · intro name2 doc2 cache'' h2
      exact load_config_h_cache_mono files cache' name2 doc2 cache'' h2
        name doc hmem

/-- Witness for C7 at the concrete marker directory, for both loaders:
after resolving `child`, resolving it again is a cache hit with the same
document, and a later resolve of `base` leaves the cached `child` entry
unchanged. -/
theorem resolve_idempotent_witness :
    (load_config markerFiles 1 resolvedMarkerCache "child"
      = LoadOutcome.ok resolvedChildDoc resolvedMarkerCache ∧
     alookup resolvedMarkerCache "child" = some resolvedChildDoc) ∧
    (load_config_h markerFiles [("child", resolvedChildDoc)] "child"
      = LoadOutcome.ok resolvedChildDoc [("child", resolvedChildDoc)] ∧
     alookup [("child", resolvedChildDoc),
        ("base", [("nodes", Value.list [Value.str "repoA"])])] "child"
      = some resolvedChildDoc) := by
  have h1 := resolve_idempotent.1 markerFiles 2 0 1 [] "child"
    resolvedChildDoc resolvedMarkerCache rfl
  have h2 := resolve_idempotent.2 markerFiles [] "child"
    resolvedChildDoc [("child", resolvedChildDoc)] rfl
  refine ⟨⟨h1.1, h1.2 "base" [("nodes", Value.list [Value.str "repoA"])]
      resolvedMarkerCache rfl⟩, ⟨h2.1, ?_⟩⟩
  exact h2.2 "base" [("nodes", Value.list [Value.str "repoA"])]
    [("child", resolvedChildDoc),
     ("base", [("nodes", Value.list [Value.str "repoA"])])] rfl

/-- Enough fuel to cover an acyclic, fully-present chain makes the
simple loader succeed (one unit of fuel per link plus one). -/
theorem chain_load_ok (files : Files) (name : String) (n : Nat)
    (h : Chain files name n) :
    ∀ (cache : Cache) (fuel : Nat), n + 1 ≤ fuel →
    (load_config files fuel cache name).isOk = true := by
  induction h with
  | base name doc hf he =>
    intro cache fuel hfuel
    obtain ⟨fuel, rfl⟩ : ∃ f, fuel = f + 1 := ⟨fuel - 1, by omega⟩
    rw [load_config]
    cases hcc : alookup cache name with
    | some d0 => simp [LoadOutcome.isOk]
    | none => simp [hf, he, LoadOutcome.isOk]
  | step name doc s n hf he hchain ih =>
    intro cache fuel hfuel
    obtain ⟨fuel, rfl⟩ : ∃ f, fuel = f + 1 := ⟨fuel - 1, by omega⟩
    rw [load_config]
    cases hcc : alookup cache name with
    | some d0 => simp [LoadOutcome.isOk]
    | none =>
      simp only [hcc, hf, he]
      have hok := ih cache fuel (by omega)
      cases hrec : load_config files fuel cache (normalizeBaseName s) with
      | ok b c => simp [hrec, LoadOutcome.isOk]
      | notFound m =>
        rw [hrec] at hok
        simp [LoadOutcome.isOk] at hok
      | typeError =>
        rw [hrec] at hok
        simp [LoadOutcome.isOk] at hok
      | fuelOut =>
        rw [hrec] at hok
        simp [LoadOutcome.isOk] at hok

/-- The simple loader has no cycle guard: on the self-extending
directory `cyclicFiles` it recurses forever — the model runs out of any
amount of fuel. -/
theorem cyclic_load_fuelOut :
    ∀ fuel : Nat, load_config cyclicFiles fuel [] "a" = .fuelOut := by
  intro fuel
  induction fuel with
  | zero => rfl
  | succ fuel ih =>
    have hn : normalizeBaseName "a" = "a" := rfl
    have ih2 : load_config [("a", [("extends", Value.str "a")])] fuel [] "a"
        = LoadOutcome.fuelOut := ih
    rw [load_config]
    simp [cyclicFiles, alookup, hn, ih, ih2]

/-- C8: for every configuration whose `extends` chain is acyclic and
whose ancestor sources all exist (captured by `Chain`), resolution
terminates with a document, needing only fuel proportional to the chain
length; acyclicity is a genuine precondition — the recursion has no
in-progress set or cycle guard, and on a cyclic chain (the
self-extending `cyclicFiles`) it never terminates, exhausting any fuel. -/
theorem acyclic_resolution_terminates :
    (∀ (files : Files) (name : String) (n : Nat), Chain files name n →
      ∀ (cache : Cache) (fuel : Nat), n + 1 ≤ fuel →
      (load_config files fuel cache name).isOk = true) ∧
    (∀ fuel : Nat, load_config cyclicFiles fuel [] "a" = .fuelOut) :=
  ⟨fun files name n h => chain_load_ok files name n h, cyclic_load_fuelOut⟩

/-- Witness for C8: the two-link chain `child` extends `base` in the
concrete marker directory resolves with fuel 2. -/
theorem acyclic_resolution_terminates_witness :
    (load_config markerFiles 2 [] "child").isOk = true :=
  acyclic_resolution_terminates.1 markerFiles "child" 1
    (Chain.step "child"
      [("extends", Value.str "base"),
       ("nodes", Value.list [Value.str "!include base", Value.str "repoB"])]
      "base" 0 rfl rfl
      (Chain.base "base" [("nodes", Value.list [Value.str "repoA"])] rfl rfl))
    [] 2 (by omega)

/-- C9: the `!include base` sentinel is emitted by the document-creation
helper but never expanded by the merge: the `create` template carries the
literal marker in its `nodes` and `requirements` sequences; whenever both
sides of a merge bind a key to sequences, the merged value is the plain
concatenation (ancestor items first), so a marker among the descendant
items stays a literal entry and is never spliced; and concretely,
resolving `child` of the marker directory keeps the marker verbatim in
the resolved `nodes` sequence. -/
theorem include_marker_not_expanded :
    (∀ name base_image : String,
      alookup (create_config_data name base_image) "nodes" =
        some (Value.list [Value.str "!include base"]) ∧
      alookup (create_config_data name base_image) "requirements" =
        some (Value.list [Value.str "!include base"])) ∧
    (∀ (b o : Dict) (k : String) (lb lo : List Value), keysNodup o →
      alookup b k = some (Value.list lb) →
      alookup o k = some (Value.list lo) →
      alookup (mergeEntries b o) k = some (Value.list (lb ++ lo)) ∧
      (Value.str "!include base" ∈ lo →
        Value.str "!include base" ∈ lb ++ lo)) ∧
    load_config markerFiles 2 [] "child" =
      LoadOutcome.ok resolvedChildDoc resolvedMarkerCache := by
  refine ⟨fun name base_image => ⟨rfl, rfl⟩, ?_, rfl⟩
  intro b o k lb lo ho hb hov
  have hw := alookup_mergeEntries o ho b k
  rw [hov, hb] at hw
  simp only at hw
  refine ⟨?_, fun hm => List.mem_append.mpr (Or.inr hm)⟩
  rw [hw]
  rfl

/-- Witness for C9 at a concrete pair of sequences containing the
sentinel. -/
theorem include_marker_not_expanded_witness :
    alookup (mergeEntries [("nodes", Value.list [Value.str "repoA"])]
        [("nodes", Value.list [Value.str "!include base"])]) "nodes"
      = some (Value.list [Value.str "repoA", Value.str "!include base"]) ∧
    Value.str "!include base" ∈
      ([Value.str "repoA"] ++ [Value.str "!include base"] : List Value) := by
  have h := include_marker_not_expanded.2.1
    [("nodes", Value.list [Value.str "repoA"])]
    [("nodes", Value.list [Value.str "!include base"])] "nodes"
    [Value.str "repoA"] [Value.str "!include base"] (by decide) rfl rfl
  exact ⟨h.1, h.2 (List.mem_cons_self _ _)⟩

/-- Counterexample to C6 as stated: `twoOffenseDoc` carries two distinct
offenses at once — the required field `version` is missing and the
single checkpoints model entry lacks `url` — yet `validate_config`
returns at the first failed check and reports exactly one offense, the
missing `version`; the model offense is never reported. -/
theorem validate_single_report_counterexample :
    alookup twoOffenseDoc "version" = none ∧
    alookup [("name", Value.str "m")] "url" = none ∧
    validate_run twoOffenseDoc = (false, [VErr.missingField "version"]) :=
  ⟨rfl, rfl, rfl⟩

/-- C6 amended: validation stops at the first offense in check order
(required fields, then `nodes`, then `models`) and reports only that
offense: whenever `name` is present but `version` is missing, the
reported error list is exactly the one missing-`version` entry, no
matter how many further violations the document contains. -/
theorem validate_reports_first_offense_only (config : Dict)
    (h1 : (alookup config "name").isSome = true)
    (h2 : alookup config "version" = none) :
    validate_run config = (false, [VErr.missingField "version"]) := by
  obtain ⟨nv, hnv⟩ := Option.isSome_iff_exists.mp h1
  simp [validate_run, hnv, h2]

/-- Witness for the amended C6 at a concrete document. -/
theorem validate_reports_first_offense_only_witness :
    validate_run [("name", Value.str "y")]
      = (false, [VErr.missingField "version"]) :=
  validate_reports_first_offense_only [("name", Value.str "y")] rfl rfl

/-- C10: the requirements artifact is deduplicated — the lines written
are exactly the distinct strings of the resolved `requirements` sequence
(same membership), with no duplicates, each distinct requirement
appearing exactly once; duplicates produced by the append-merge of an
ancestor and a descendant list therefore never reach `requirements.txt`. -/
theorem requirements_deduplicated (reqs : List String) (_h : reqs ≠ []) :
    (∀ s, s ∈ process_requirements_lines reqs ↔ s ∈ reqs) ∧
    (process_requirements_lines reqs).Nodup ∧
    (∀ s ∈ reqs, (process_requirements_lines reqs).count s = 1) := by
  refine ⟨fun s => by simp [process_requirements_lines],
    List.nodup_dedup reqs, fun s hs => ?_⟩
  simp only [process_requirements_lines, List.count_dedup]
  simp [hs]

/-- Witness for C10 on a concrete list with a duplicate produced by an
append. -/
theorem requirements_deduplicated_witness :
    (("a" ∈ process_requirements_lines ["a", "b", "a"]) ↔
      "a" ∈ ["a", "b", "a"]) ∧
    (process_requirements_lines ["a", "b", "a"]).Nodup ∧
    (process_requirements_lines ["a", "b", "a"]).count "a" = 1 := by
  have h := requirements_deduplicated ["a", "b", "a"] (by decide)
  exact ⟨h.1 "a", h.2.1, h.2.2 "a" (by decide)⟩

/-- The node loop reports nothing exactly when every dict entry of
`nodes` carries a `url`. -/
theorem nodesErrs_none_iff (l : List Value) :
    nodesErrs l = none ↔
      ∀ v ∈ l, ∀ m, v = Value.map m → (alookup m "url").isSome = true := by
  induction l with
  | nil => simp [nodesErrs]
  | cons v rest ih =>
    cases v with
    | map m =>
      by_cases hu : (alookup m "url").isSome = true
      · simp [nodesErrs, hu, ih, List.forall_mem_cons]
      · simp [nodesErrs, hu, List.forall_mem_cons]
    | str s => simp [nodesErrs, ih, List.forall_mem_cons]
    | int n => simp [nodesErrs, ih, List.forall_mem_cons]
    | bool b => simp [nodesErrs, ih, List.forall_mem_cons]
    | null => simp [nodesErrs, ih, List.forall_mem_cons]
    | list ls => simp [nodesErrs, ih, List.forall_mem_cons]

/-- On a category whose entries are all mappings, the model loop neither
raises nor misses: it accepts exactly when every entry carries both
`url` and `name`. -/
theorem modelListCheck_maps (l : List Value)
    (hl : ∀ e ∈ l, e.isMapB = true) :
    (modelListCheck l = Except.ok none ↔
      ∀ e ∈ l, ∀ m, e = Value.map m →
        (alookup m "url").isSome = true ∧
        (alookup m "name").isSome = true) ∧
    modelListCheck l ≠ Except.error () := by
  induction l with
  | nil => simp [modelListCheck]
  | cons v rest ih =>
    have hv := hl v (List.mem_cons_self _ _)
    have hrest := ih (fun e he => hl e (List.mem_cons_of_mem _ he))
    cases v with
    | map m =>
      by_cases hu : (alookup m "url").isSome = true
      · by_cases hn : (alookup m "name").isSome = true
        · simp [modelListCheck, pyContains, hu, hn, hrest.1, hrest.2,
            List.forall_mem_cons]
        · simp [modelListCheck, pyContains, hu, hn, List.forall_mem_cons]
      · simp [modelListCheck, pyContains, hu, List.forall_mem_cons]
    | str s => exact absurd hv (by simp [Value.isMapB])
    | int n => exact absurd hv (by simp [Value.isMapB])
    | bool b => exact absurd hv (by simp [Value.isMapB])
    | null => exact absurd hv (by simp [Value.isMapB])
    | list ls => exact absurd hv (by simp [Value.isMapB])

/-- On a `models` mapping whose categories are all sequences of
mappings, the category loop neither raises nor misses: it accepts
exactly when every entry of every category carries both `url` and
`name`. -/
theorem modelsCheck_wf (cats : List (String × Value))
    (hw : ∀ p ∈ cats, isListOfMaps p.2 = true) :
    (modelsCheck cats = Except.ok none ↔
      ∀ p ∈ cats, ∀ l, p.2 = Value.list l → ∀ e ∈ l, ∀ m, e = Value.map m →
        (alookup m "url").isSome = true ∧
        (alookup m "name").isSome = true) ∧
    modelsCheck cats ≠ Except.error () := by
  induction cats with
  | nil => simp [modelsCheck]
  | cons p rest ih =>
    obtain ⟨c, ml⟩ := p
    have hp := hw (c, ml) (List.mem_cons_self _ _)
    have hrest := ih (fun q hq => hw q (List.mem_cons_of_mem _ hq))
    cases ml with
    | list l =>
      have hmaps : ∀ e ∈ l, e.isMapB = true := by
        simpa [isListOfMaps, List.all_eq_true] using hp
      have hmlc := modelListCheck_maps l hmaps
      cases hchk : modelListCheck l with
      | error u =>
        cases u
        exact absurd hchk hmlc.2
      | ok o =>
        cases o with
        | none =>
          have hprop := hmlc.1.mp hchk
          have hred : modelsCheck ((c, Value.list l) :: rest)
              = modelsCheck rest := by
            simp [modelsCheck, iterElems, hchk]
          rw [hred, hrest.1]
          refine ⟨?_, hrest.2⟩
          rw [List.forall_mem_cons]
          constructor
          · intro hr
            refine ⟨fun l0 hl0 => ?_, hr⟩
            cases hl0
            exact hprop
          · intro h2
            exact h2.2
        | some e =>
          have hprop : ¬(∀ e2 ∈ l, ∀ m, e2 = Value.map m →
              (alookup m "url").isSome = true ∧
              (alookup m "name").isSome = true) := by
            intro hp2
            rw [hmlc.1.mpr hp2] at hchk
            cases hchk
          have hred : modelsCheck ((c, Value.list l) :: rest)
              = Except.ok (some e) := by
            simp [modelsCheck, iterElems, hchk]
          rw [hred]
          constructor
          · constructor
            · intro hbad
              exact absurd hbad (by simp)
            · intro hbig
              exact absurd ((List.forall_mem_cons.mp hbig).1 l rfl) hprop
          · intro hbad
            cases hbad
    | str s => exact absurd hp (by simp [isListOfMaps])
    | int n => exact absurd hp (by simp [isListOfMaps])
    | bool b => exact absurd hp (by simp [isListOfMaps])
    | null => exact absurd hp (by simp [isListOfMaps])
    | map mm => exact absurd hp (by simp [isListOfMaps])

/-- C5: over a resolved document of the shape the data model prescribes
(`nodes` a sequence, `models` a mapping whose categories are sequences
of mappings), validation succeeds exactly when `name` and `version` are
present, every `nodes` entry that is a mapping carries `url`, and every
model entry of every category carries both `url` and `name`; moreover a
document with `name` but without `version` fails with the single
reported error naming `version`, and validation never modifies the
document — it only reads it and reports. -/
theorem validate_iff (config : Dict) (ns : List Value)
    (cats : List (String × Value))
    (hnodes : alookup config "nodes" = some (Value.list ns))
    (hmodels : alookup config "models" = some (Value.map cats))
    (hw : ∀ p ∈ cats, isListOfMaps p.2 = true) :
    (validate_doc config = true ↔
      ((alookup config "name").isSome = true ∧
       (alookup config "version").isSome = true ∧
       (∀ v ∈ ns, ∀ m, v = Value.map m → (alookup m "url").isSome = true) ∧
       (∀ p ∈ cats, ∀ l, p.2 = Value.list l → ∀ e ∈ l, ∀ m,
         e = Value.map m → (alookup m "url").isSome = true ∧
         (alookup m "name").isSome = true))) ∧
    ((alookup config "name").isSome = true →
      alookup config "version" = none →
      validate_run config = (false, [VErr.missingField "version"])) := by
  have hmc := modelsCheck_wf cats hw
  constructor
  · cases hname : alookup config "name" with
    | none =>
      have hred : validate_run config
          = (false, [VErr.missingField "name"]) := by
        simp [validate_run, hname]
      rw [validate_doc, hred]
      constructor
      · intro hbad
        simp at hbad
      · intro hbig
        simp at hbig
    | some nv =>
      cases hver : alookup config "version" with
      | none =>
        have hred : validate_run config
            = (false, [VErr.missingField "version"]) := by
          simp [validate_run, hname, hver]
        rw [validate_doc, hred]
        constructor
        · intro hbad
          simp at hbad
        · intro hbig
          simp at hbig
      | some vv =>
        cases hne : nodesErrs ns with
        | some e =>
          have hnprop : ¬(∀ v ∈ ns, ∀ m, v = Value.map m →
              (alookup m "url").isSome = true) := by
            intro hp
            rw [(nodesErrs_none_iff ns).mpr hp] at hne
            cases hne
          have hred : validate_run config = (false, [e]) := by
            simp [validate_run, hname, hver, hnodes, iterElems, hne]
          rw [validate_doc, hred]
          constructor
          · intro hbad
            simp at hbad
          · intro hbig
            exact absurd hbig.2.2.1 hnprop
        | none =>
          have hnprop := (nodesErrs_none_iff ns).mp hne
          cases hchk : modelsCheck cats with
          | error u =>
            cases u
            exact absurd hchk hmc.2
          | ok o =>
            cases o with
            | none =>
              have hmprop := hmc.1.mp hchk
              have hred : validate_run config = (true, []) := by
                simp [validate_run, hname, hver, hnodes, hmodels,
                  iterElems, hne, hchk]
              rw [validate_doc, hred]
              constructor
              · intro _
                exact ⟨by simp [hname], by simp [hver], hnprop, hmprop⟩
              · intro _
                rfl
            | some e =>
              have hmprop : ¬(∀ p ∈ cats, ∀ l, p.2 = Value.list l →
                  ∀ e2 ∈ l, ∀ m, e2 = Value.map m →
                  (alookup m "url").isSome = true ∧
                  (alookup m "name").isSome = true) := by
                intro hp
                rw [hmc.1.mpr hp] at hchk
                cases hchk
              have hred : validate_run config = (false, [e]) := by
                simp [validate_run, hname, hver, hnodes, hmodels,
                  iterElems, hne, hchk]
              rw [validate_doc, hred]
              constructor
              · intro hbad
                simp at hbad
              · intro hbig
                exact absurd hbig.2.2.2 hmprop
  · intro h1 h2
    obtain ⟨nv, hnv⟩ := Option.isSome_iff_exists.mp h1
    simp [validate_run, hnv, h2]

/-- Witness for C5: a concrete document with `name` but no `version`
fails validation naming `version`. -/
theorem validate_iff_witness :
    validate_run [("name", Value.str "w"), ("nodes", Value.list []),
        ("models", Value.map [])]
      = (false, [VErr.missingField "version"]) :=
  (validate_iff [("name", Value.str "w"), ("nodes", Value.list []),
      ("models", Value.map [])] [] [] rfl rfl
    (fun p hp => by cases hp)).2 rfl rfl
